import Mathlib

/-!
A shallow embedding of `src/pagerank.py` (the CS50 AI PageRank program).

Modelling conventions:
* Python dicts preserve insertion order, so a dict is an association list
  `List (Page × _)` in key-insertion order; Python sets of strings appear only
  through membership and `len`, and are modelled as duplicate-free lists.
* Python floats are modelled as exact rationals `ℚ` (`0.85` becomes `17/20`,
  `0.001` becomes `1/1000`); every comparison the claims exercise holds with
  margins far wider than any floating-point rounding.
* Runtime faults (`KeyError`, `IndexError` from `random.choice([])`,
  `NameError` from reading the never-assigned `max_diff` on an empty corpus)
  are modelled with `Except Err`.
* The random stream consumed by `random.choice` / `random.choices` is an
  arbitrary function `draws : ℕ → ℕ`; each drawn value indexes (mod length)
  into the population list the Python call samples from.
* The unbounded `while True` loop of `iterate_pagerank` is run with explicit
  fuel counting its rounds; `Err.fuelOut` means the loop had not yet returned.
-/

deriving instance DecidableEq for Except

attribute [local semireducible] Rat.add Rat.sub Rat.mul Rat.inv

namespace PageRank

abbrev Page := String

/-- Python's `s.endswith(suffix)`, as a suffix test on the character data. -/
def endsWithStr (s suffix : String) : Bool := suffix.data.isSuffixOf s.data

/-- A corpus: `corpus[page]` is the set of pages that `page` links to. -/
abbrev Corpus := List (Page × List Page)

/-- A probability distribution over pages, as built by `transition_model`. -/
abbrev Dist := List (Page × ℚ)

/-- A rank mapping: page to estimated PageRank value. -/
abbrev RankList := List (Page × ℚ)

/-- The Python runtime faults reachable in this program, plus `fuelOut` for a
round budget exhausted before `iterate_pagerank`'s `while True` returned. -/
inductive Err
  | keyError
  | indexError
  | nameError
  | fuelOut
  deriving DecidableEq

/-- The keys of a dict, in iteration (insertion) order. -/
def keys (m : List (Page × α)) : List Page := m.map Prod.fst

/-- Dict lookup: the first binding of the key, if any. -/
def find? : List (Page × α) → Page → Option α
  | [], _ => none
  | e :: rest, k => if e.1 = k then some e.2 else find? rest k

/-- Dict assignment `m[k] = v` to an existing key (all uses hit existing keys). -/
def setVal (m : List (Page × α)) (k : Page) (v : α) : List (Page × α) :=
  m.map fun e => if e.1 = k then (k, v) else e

/-- `rank[k] += 1` (all uses hit existing keys). -/
def incr (m : RankList) (k : Page) : RankList :=
  m.map fun e => if e.1 = k then (e.1, e.2 + 1) else e

/-- The sum of the values of a rank mapping (the quantity the spec says is 1). -/
def rsum (m : RankList) : ℚ := (m.map Prod.snd).sum

/-- Module constant `DAMPING = 0.85`. -/
def DAMPING : ℚ := 17 / 20

/-- Module constant `SAMPLES = 10000`. -/
def SAMPLES : ℕ := 10000

/-- `transition_model(corpus, page, damping_factor)` (pagerank.py lines 51-82):
`corpus[page]` raises `KeyError` when `page` is not a key; with outlinks, every
page gets `(1-d)/N` and each outlink target additionally `d/num_links`; with no
outlinks, every page gets `1/N` uniformly. -/
def transition_model (corpus : Corpus) (page : Page) (damping_factor : ℚ) :
    Except Err Dist :=
  match find? corpus page with
  | none => Except.error Err.keyError
  | some links =>
    let num_links := links.length
    if num_links ≠ 0 then
      let prob_damp := (1 - damping_factor) / (corpus.length : ℚ)
      Except.ok (corpus.map fun e =>
        if e.1 ∈ links then
          (e.1, damping_factor / (num_links : ℚ) + prob_damp)
        else
          (e.1, prob_damp))
    else
      Except.ok (corpus.map fun e => (e.1, 1 / (corpus.length : ℚ)))

/-- The `for i in range(n - 1)` loop of `sample_pagerank` (lines 101-104).
Note the source passes the module constant `DAMPING` to `transition_model`,
not the `damping_factor` parameter of `sample_pagerank`. `random.choices`
draws an element of `list(prob_dist.keys())`; the draw is modelled by indexing
that key list with `draws idx` reduced mod its length. -/
def sampleSteps (corpus : Corpus) (draws : ℕ → ℕ) :
    ℕ → Page → RankList → ℕ → Except Err RankList
  | 0, _, rank, _ => Except.ok rank
  | k + 1, page, rank, idx =>
    match transition_model corpus page DAMPING with
    | Except.error e => Except.error e
    | Except.ok prob_dist =>
      let ks := keys prob_dist
      let next_page := ks.getD (draws idx % ks.length) ""
      sampleSteps corpus draws k next_page (incr rank next_page) (idx + 1)

/-- `sample_pagerank(corpus, damping_factor, n)` (lines 85-109): zero counters,
a uniform initial `random.choice(list(corpus))` (an `IndexError` on an empty
corpus), `n - 1` sampling steps, then each counter is divided by `n`. -/
def sample_pagerank (corpus : Corpus) (damping_factor : ℚ) (n : ℕ)
    (draws : ℕ → ℕ) : Except Err RankList :=
  if corpus.length = 0 then Except.error Err.indexError
  else
    let rank0 : RankList := corpus.map fun e => (e.1, (0 : ℚ))
    let ks := keys corpus
    let next_page := ks.getD (draws 0 % ks.length) ""
    let rank1 := incr rank0 next_page
    match sampleSteps corpus draws (n - 1) next_page rank1 1 with
    | Except.error e => Except.error e
    | Except.ok rank => Except.ok (rank.map fun e => (e.1, e.2 / (n : ℚ)))

/-- `link_to[page]`: the pages whose outlink set contains `page`, in corpus
order — exactly the reverse-link index built in lines 123-130. -/
def linkTo (corpus : Corpus) (page : Page) : List Page :=
  corpus.filterMap fun e => if page ∈ e.2 then some e.1 else none

/-- `len(corpus[p])` for a page known to be a corpus key. -/
def numLinksOf (corpus : Corpus) (page : Page) : ℕ :=
  ((find? corpus page).getD []).length

/-- The body computing `new_rank` for one page (lines 135-149), read against
the rank mapping as it currently stands: if the page has outlinks the sum runs
over `link_to[html]`; otherwise it runs over every page of `rank` that has a
nonzero outlink count. -/
def newRankFor (corpus : Corpus) (damping_factor : ℚ) (rank : RankList)
    (html : Page) : ℚ :=
  let s :=
    if numLinksOf corpus html ≠ 0 then
      (linkTo corpus html).foldl
        (fun acc i => acc + ((find? rank i).getD 0) / (numLinksOf corpus i : ℚ)) 0
    else
      rank.foldl
        (fun acc e =>
          if numLinksOf corpus e.1 ≠ 0 then
            acc + e.2 / (numLinksOf corpus e.1 : ℚ)
          else acc) 0
  (1 - damping_factor) / (corpus.length : ℚ) + damping_factor * s

/-- One pass of the `for html in corpus` loop (lines 134-155): `max_diff` is
re-initialised to `0` for every page, each page's `diff` is compared against
it, and `rank[html]` is overwritten in place before the next page is
processed. The pair returned is the rank dict and the value `max_diff` holds
when the pass ends (i.e. the last page's `diff`). -/
def iterPass (corpus : Corpus) (damping_factor : ℚ) :
    List Page → RankList → ℚ → RankList × ℚ
  | [], rank, max_diff => (rank, max_diff)
  | html :: rest, rank, _ =>
    let max_diff0 : ℚ := 0
    let new_rank := newRankFor corpus damping_factor rank html
    let diff := |((find? rank html).getD 0) - new_rank|
    let max_diff1 := if diff > max_diff0 then diff else max_diff0
    iterPass corpus damping_factor rest (setVal rank html new_rank) max_diff1

/-- The `while True` loop (lines 133-158) with explicit round fuel: run a pass,
return the rank dict if the final `max_diff` is below `0.001`, else repeat. -/
def iterLoop (corpus : Corpus) (damping_factor : ℚ) :
    ℕ → RankList → Except Err RankList
  | 0, _ => Except.error Err.fuelOut
  | fuel + 1, rank =>
    let passed := iterPass corpus damping_factor (keys corpus) rank 0
    if passed.2 < 1 / 1000 then Except.ok passed.1
    else iterLoop corpus damping_factor fuel passed.1

/-- `iterate_pagerank(corpus, damping_factor)` (lines 112-158): every rank is
initialised to `1/N`; on an empty corpus the first `if max_diff < 0.001` reads
a never-assigned local and raises `NameError`. -/
def iterate_pagerank (corpus : Corpus) (damping_factor : ℚ) (fuel : ℕ) :
    Except Err RankList :=
  if corpus.length = 0 then Except.error Err.nameError
  else
    iterLoop corpus damping_factor fuel
      (corpus.map fun e => (e.1, 1 / (corpus.length : ℚ)))

/-- The `pages` dict after the first loop of `crawl(directory)` (lines 30-39):
the input pairs each directory entry with the raw link targets extracted from
its contents; only names ending in `".html"` become pages, and each page maps
to `set(links) - {filename}` (deduplicated, with the page itself removed). -/
def crawlPages (files : List (Page × List Page)) : Corpus :=
  (files.filter fun f => endsWithStr f.1 ".html").map
    fun f => (f.1, f.2.dedup.filter fun l => l ≠ f.1)

/-- The pure core of `crawl(directory)` (lines 24-48): the second loop (lines
42-46) keeps only links that are keys of `pages` (the second loop replaces
values only, so the key set consulted by `link in pages` never changes). -/
def crawl (files : List (Page × List Page)) : Corpus :=
  (crawlPages files).map fun e =>
    (e.1, e.2.filter fun link => (find? (crawlPages files) link).isSome)

/-- What `main` (lines 10-21) can do: exit with the usage message (exit status
`1`, Python's status for `sys.exit(str)`), or report both estimators' results. -/
inductive MainOutcome
  | usageExit (code : ℕ)
  | report (sampleRanks iterRanks : RankList)
  deriving DecidableEq

/-- `main()` (lines 10-21): with `len(sys.argv) != 2` — i.e. the number of
supplied arguments is not exactly one — it exits with the usage message;
otherwise it runs `sample_pagerank(corpus, DAMPING, SAMPLES)` and
`iterate_pagerank(corpus, DAMPING)` on the crawled corpus and reports both.
`corpus` stands for the value `crawl(sys.argv[1])` returns. -/
def mainProg (args : List String) (corpus : Corpus) (draws : ℕ → ℕ)
    (fuel : ℕ) : Except Err MainOutcome :=
  if args.length ≠ 1 then Except.ok (MainOutcome.usageExit 1)
  else
    match sample_pagerank corpus DAMPING SAMPLES draws with
    | Except.error e => Except.error e
    | Except.ok s =>
      match iterate_pagerank corpus DAMPING fuel with
      | Except.error e => Except.error e
      | Except.ok r => Except.ok (MainOutcome.report s r)

/-- The all-at-once ("frozen snapshot") round the spec describes in §9: every
page's new rank is computed from the same prior-round mapping. Modelled from
the spec for comparison with the in-place `iterPass`. -/
def jacobiPass (corpus : Corpus) (damping_factor : ℚ) (rank : RankList) :
    RankList :=
  corpus.map fun e => (e.1, newRankFor corpus damping_factor rank e.1)

/-- Sum of a weight function over a list of pages (spec-side bookkeeping used
to state the sum-to-one properties). -/
def wsum (ks : List Page) (w : Page → ℚ) : ℚ := (ks.map w).sum

/-! ### Association-list lemmas -/

@[simp]
theorem keys_nil : keys ([] : List (Page × α)) = [] := rfl

@[simp]
theorem keys_cons (e : Page × α) (m : List (Page × α)) :
    keys (e :: m) = e.1 :: keys m := rfl

@[simp]
theorem find?_nil (k : Page) : find? ([] : List (Page × α)) k = none := rfl

@[simp]
theorem find?_cons (e : Page × α) (m : List (Page × α)) (k : Page) :
    find? (e :: m) k = if e.1 = k then some e.2 else find? m k := rfl

@[simp]
theorem setVal_nil (k : Page) (v : α) : setVal ([] : List (Page × α)) k v = [] :=
  rfl

@[simp]
theorem setVal_cons (e : Page × α) (m : List (Page × α)) (k : Page) (v : α) :
    setVal (e :: m) k v
      = (if e.1 = k then (k, v) else e) :: setVal m k v := rfl

@[simp]
theorem incr_nil (k : Page) : incr [] k = [] := rfl

@[simp]
theorem incr_cons (e : Page × ℚ) (m : RankList) (k : Page) :
    incr (e :: m) k = (if e.1 = k then (e.1, e.2 + 1) else e) :: incr m k := rfl

@[simp]
theorem rsum_nil : rsum [] = 0 := rfl

@[simp]
theorem rsum_cons (e : Page × ℚ) (m : RankList) :
    rsum (e :: m) = e.2 + rsum m := by
  simp [rsum]

@[simp]
theorem wsum_nil (w : Page → ℚ) : wsum [] w = 0 := rfl

@[simp]
theorem wsum_cons (k : Page) (ks : List Page) (w : Page → ℚ) :
    wsum (k :: ks) w = w k + wsum ks w := by
  simp [wsum]

theorem keys_map_of_fst (m : List (Page × α)) (g : Page × α → Page × β)
    (h : ∀ e, (g e).1 = e.1) : keys (m.map g) = keys m := by
  unfold keys
  rw [List.map_map]
  exact List.map_congr_left fun e _ => h e

theorem keys_map (m : List (Page × α)) (f : Page → α → β) :
    keys (m.map fun e => (e.1, f e.1 e.2)) = keys m :=
  keys_map_of_fst m _ fun _ => rfl

theorem find?_isSome_iff (m : List (Page × α)) (k : Page) :
    (find? m k).isSome ↔ k ∈ keys m := by
  induction m with
  | nil => simp
  | cons e rest ih =>
    by_cases h : e.1 = k
    · simp [h]
    · rw [find?_cons, if_neg h, keys_cons, List.mem_cons, ih]
      constructor
      · exact Or.inr
      · rintro (hh | hh)
        · exact absurd hh.symm h
        · exact hh

theorem mem_keys_of_find? {m : List (Page × α)} {k : Page} {v : α}
    (h : find? m k = some v) : k ∈ keys m := by
  rw [← find?_isSome_iff, h]
  rfl

theorem find?_map (m : List (Page × α)) (f : Page → α → β) (k : Page) :
    find? (m.map fun e => (e.1, f e.1 e.2)) k = (find? m k).map (f k) := by
  induction m with
  | nil => rfl
  | cons e rest ih =>
    by_cases h : e.1 = k
    · simp [h]
    · simp [h, ih]

theorem keys_setVal (m : List (Page × α)) (k : Page) (v : α) :
    keys (setVal m k v) = keys m := by
  refine keys_map_of_fst m _ fun e => ?_
  by_cases h : e.1 = k <;> simp [h]

theorem find?_setVal_self {m : List (Page × α)} {k : Page} (v : α)
    (h : k ∈ keys m) : find? (setVal m k v) k = some v := by
  induction m with
  | nil => simp at h
  | cons e rest ih =>
    by_cases he : e.1 = k
    · simp [he]
    · rw [keys_cons, List.mem_cons] at h
      have hk : k ∈ keys rest := by
        rcases h with hh | hh
        · exact absurd hh.symm he
        · exact hh
      rw [setVal_cons, if_neg he, find?_cons, if_neg he]
      exact ih hk

theorem find?_setVal_ne {m : List (Page × α)} {k q : Page} (v : α)
    (h : q ≠ k) : find? (setVal m k v) q = find? m q := by
  induction m with
  | nil => rfl
  | cons e rest ih =>
    by_cases he : e.1 = k
    · have h1 : ¬(k = q) := fun hq => h hq.symm
      have h2 : ¬(e.1 = q) := fun hq => h1 (he.symm.trans hq)
      rw [setVal_cons, if_pos he, find?_cons, find?_cons, if_neg h1, if_neg h2]
      exact ih
    · rw [setVal_cons, if_neg he, find?_cons, find?_cons]
      by_cases hq : e.1 = q
      · rw [if_pos hq, if_pos hq]
      · rw [if_neg hq, if_neg hq]
        exact ih

theorem keys_incr (m : RankList) (k : Page) : keys (incr m k) = keys m := by
  refine keys_map_of_fst m _ fun e => ?_
  by_cases h : e.1 = k <;> simp [h]

theorem incr_of_not_mem {m : RankList} {k : Page} (h : k ∉ keys m) :
    incr m k = m := by
  induction m with
  | nil => rfl
  | cons e rest ih =>
    rw [keys_cons, List.mem_cons, not_or] at h
    rw [incr_cons, if_neg (fun hk : e.1 = k => h.1 hk.symm), ih h.2]

theorem rsum_incr {m : RankList} {k : Page} (hmem : k ∈ keys m)
    (hnd : (keys m).Nodup) : rsum (incr m k) = rsum m + 1 := by
  induction m with
  | nil => simp at hmem
  | cons e rest ih =>
    rw [keys_cons, List.nodup_cons] at hnd
    by_cases he : e.1 = k
    · have hnk : k ∉ keys rest := he ▸ hnd.1
      rw [incr_cons, if_pos he, incr_of_not_mem hnk, rsum_cons, rsum_cons]
      ring
    · rw [keys_cons, List.mem_cons] at hmem
      have hk : k ∈ keys rest := by
        rcases hmem with hh | hh
        · exact absurd hh.symm he
        · exact hh
      rw [incr_cons, if_neg he, rsum_cons, rsum_cons, ih hk hnd.2]
      ring

/-! ### Weight-sum lemmas -/

theorem rsum_map_keyfun (m : List (Page × α)) (w : Page → ℚ) :
    rsum (m.map fun e => (e.1, w e.1)) = wsum (keys m) w := by
  induction m with
  | nil => rfl
  | cons e rest ih => simp [ih]

theorem wsum_congr {ks : List Page} {f g : Page → ℚ}
    (h : ∀ k ∈ ks, f k = g k) : wsum ks f = wsum ks g := by
  induction ks with
  | nil => rfl
  | cons k rest ih =>
    rw [wsum_cons, wsum_cons, h k (List.mem_cons_self k rest),
      ih fun a ha => h a (List.mem_cons_of_mem k ha)]

theorem wsum_add (ks : List Page) (f g : Page → ℚ) :
    wsum ks (fun k => f k + g k) = wsum ks f + wsum ks g := by
  induction ks with
  | nil => simp
  | cons k rest ih =>
    rw [wsum_cons, wsum_cons, wsum_cons, ih]
    ring

theorem wsum_const (ks : List Page) (x : ℚ) :
    wsum ks (fun _ => x) = (ks.length : ℚ) * x := by
  induction ks with
  | nil => simp
  | cons k rest ih =>
    rw [wsum_cons, ih, List.length_cons]
    push_cast
    ring

theorem wsum_zero (ks : List Page) : wsum ks (fun _ => 0) = 0 := by
  simpa using wsum_const ks 0

theorem wsum_single {ks : List Page} {a : Page} (x : ℚ)
    (hnd : ks.Nodup) (ha : a ∈ ks) :
    wsum ks (fun k => if k = a then x else 0) = x := by
  induction ks with
  | nil => simp at ha
  | cons k rest ih =>
    rw [List.nodup_cons] at hnd
    rw [wsum_cons]
    by_cases hk : k = a
    · have hna : a ∉ rest := hk ▸ hnd.1
      have : wsum rest (fun q => if q = a then x else 0) = 0 := by
        rw [wsum_congr (g := fun _ => (0 : ℚ))
          fun q hq => if_neg fun hqa : q = a => hna (hqa ▸ hq)]
        exact wsum_zero rest
      rw [if_pos hk, this]
      ring
    · have ha' : a ∈ rest := by
        rcases List.mem_cons.mp ha with hh | hh
        · exact absurd hh.symm hk
        · exact hh
      rw [if_neg hk, ih hnd.2 ha']
      ring

theorem wsum_indicator {ks links : List Page} (x : ℚ)
    (hndK : ks.Nodup) (hndL : links.Nodup) (hsub : ∀ l ∈ links, l ∈ ks) :
    wsum ks (fun k => if k ∈ links then x else 0) = (links.length : ℚ) * x := by
  induction links with
  | nil =>
    rw [wsum_congr (g := fun _ => (0 : ℚ)) fun k _ => by simp, wsum_zero]
    simp
  | cons a ls ih =>
    rw [List.nodup_cons] at hndL
    have step : ∀ k ∈ ks,
        (if k ∈ a :: ls then x else 0)
          = (if k = a then x else 0) + (if k ∈ ls then x else 0) := by
      intro k _
      by_cases h1 : k = a
      · subst h1
        simp [hndL.1]
      · by_cases h2 : k ∈ ls <;> simp [h1, h2]
    rw [wsum_congr step, wsum_add,
      wsum_single x hndK (hsub a (List.mem_cons_self a ls)),
      ih hndL.2 fun l hl => hsub l (List.mem_cons_of_mem a hl), List.length_cons]
    push_cast
    ring

/-! ### Behaviour of `transition_model` -/

theorem transition_model_links {corpus : Corpus} {page : Page}
    {links : List Page} (h : find? corpus page = some links)
    (hL : links.length ≠ 0) (d : ℚ) :
    transition_model corpus page d
      = Except.ok (corpus.map fun e =>
          (e.1, if e.1 ∈ links
                then d / (links.length : ℚ) + (1 - d) / (corpus.length : ℚ)
                else (1 - d) / (corpus.length : ℚ))) := by
  rw [transition_model, h]
  simp only [hL, ne_eq, not_false_iff, if_true]
  refine congrArg Except.ok (List.map_congr_left fun e _ => ?_)
  by_cases hm : e.1 ∈ links <;> simp [hm]

theorem transition_model_dangling {corpus : Corpus} {page : Page}
    (h : find? corpus page = some []) (d : ℚ) :
    transition_model corpus page d
      = Except.ok (corpus.map fun e => (e.1, 1 / (corpus.length : ℚ))) := by
  rw [transition_model, h]
  simp

theorem transition_model_total {corpus : Corpus} {page : Page} (d : ℚ)
    (h : page ∈ keys corpus) :
    ∃ dist, transition_model corpus page d = Except.ok dist
      ∧ keys dist = keys corpus := by
  have hs : (find? corpus page).isSome := (find?_isSome_iff _ _).mpr h
  obtain ⟨links, hl⟩ := Option.isSome_iff_exists.mp hs
  by_cases hL : links.length = 0
  · have hnil : links = [] := List.length_eq_zero.mp hL
    subst hnil
    exact ⟨_, transition_model_dangling hl d,
      keys_map_of_fst corpus _ fun _ => rfl⟩
  · exact ⟨_, transition_model_links hl hL d,
      keys_map_of_fst corpus _ fun e => by by_cases hm : e.1 ∈ links <;> simp [hm]⟩

theorem length_keys (m : List (Page × α)) : (keys m).length = m.length :=
  List.length_map m Prod.fst

theorem corpus_length_ne_zero {corpus : Corpus} {page : Page}
    (h : page ∈ keys corpus) : (corpus.length : ℚ) ≠ 0 := by
  have : keys corpus ≠ [] := List.ne_nil_of_mem h
  have hpos : 0 < corpus.length := by
    rw [← length_keys]
    exact List.length_pos.mpr this
  exact_mod_cast Nat.pos_iff_ne_zero.mp hpos

/-! ### Claims C7 and C10: `transition_model` -/

/-- **C7.** For every corpus satisfying the data-model invariants of spec §3
(distinct page keys, duplicate-free outlink sets whose members are corpus
pages), every page that is a key with outlink set `links`, and every damping
factor `d`: with `L ≥ 1` outlinks, `transition_model` assigns each outlink
target weight `(1-d)/N + d/L` and every other page `(1-d)/N`; with zero
outlinks it assigns every page, the page itself included, uniform weight
`1/N`; in both cases the returned weights sum to exactly 1.  (No bound on `d`
is even needed.) -/
theorem c7_transition_weights (corpus : Corpus) (page : Page) (d : ℚ)
    (links : List Page) (hf : find? corpus page = some links)
    (hndK : (keys corpus).Nodup) (hndL : links.Nodup)
    (hsub : ∀ l ∈ links, l ∈ keys corpus) :
    ∃ dist,
      transition_model corpus page d = Except.ok dist
        ∧ (links.length ≠ 0 →
            dist = corpus.map fun e =>
              (e.1, if e.1 ∈ links
                    then (1 - d) / (corpus.length : ℚ) + d / (links.length : ℚ)
                    else (1 - d) / (corpus.length : ℚ)))
        ∧ (links.length = 0 →
            dist = corpus.map fun e => (e.1, 1 / (corpus.length : ℚ)))
        ∧ rsum dist = 1 := by
  have hpage : page ∈ keys corpus := mem_keys_of_find? hf
  have hN : (corpus.length : ℚ) ≠ 0 := corpus_length_ne_zero hpage
  by_cases hL : links.length = 0
  · have hnil : links = [] := List.length_eq_zero.mp hL
    subst hnil
    refine ⟨_, transition_model_dangling hf d, fun h => absurd rfl h,
      fun _ => rfl, ?_⟩
    rw [rsum_map_keyfun corpus fun _ => 1 / (corpus.length : ℚ), wsum_const,
      length_keys]
    field_simp
  · have hQ : (links.length : ℚ) ≠ 0 := Nat.cast_ne_zero.mpr hL
    refine ⟨_, transition_model_links hf hL d, fun _ => ?_,
      fun h => absurd h hL, ?_⟩
    · refine List.map_congr_left fun e _ => ?_
      by_cases hm : e.1 ∈ links <;> simp [hm, add_comm]
    · have hform : (corpus.map fun e =>
            (e.1, if e.1 ∈ links
                  then d / (links.length : ℚ) + (1 - d) / (corpus.length : ℚ)
                  else (1 - d) / (corpus.length : ℚ)))
          = corpus.map fun e =>
              (e.1, (1 - d) / (corpus.length : ℚ)
                + if e.1 ∈ links then d / (links.length : ℚ) else 0) := by
        refine List.map_congr_left fun e _ => ?_
        by_cases hm : e.1 ∈ links <;> simp [hm, add_comm]
      rw [hform]
      have hkey := rsum_map_keyfun corpus fun k =>
        (1 - d) / (corpus.length : ℚ)
          + if k ∈ links then d / (links.length : ℚ) else 0
      rw [hkey]
      have hadd := wsum_add (keys corpus)
        (fun _ => (1 - d) / (corpus.length : ℚ))
        (fun k => if k ∈ links then d / (links.length : ℚ) else 0)
      rw [hadd, wsum_const, length_keys,
        wsum_indicator (d / (links.length : ℚ)) hndK hndL hsub]
      field_simp

/-- Witness for C7: the two-page cycle `{A: {B}, B: {A}}` at page `A`. -/
theorem c7_transition_weights_witness :
    ∃ dist,
      transition_model [("A", ["B"]), ("B", ["A"])] "A" (17 / 20)
          = Except.ok dist
        ∧ rsum dist = 1 := by
  obtain ⟨dist, h1, -, -, h4⟩ :=
    c7_transition_weights [("A", ["B"]), ("B", ["A"])] "A" (17 / 20) ["B"]
      (by decide) (by decide) (by decide) (by decide)
  exact ⟨dist, h1, h4⟩

/-- **C10.** For every non-empty corpus, page that is one of its keys, and any
damping factor, `transition_model` returns normally (no `KeyError`, and both
divisions have nonzero divisors: `len(corpus) ≥ 1`, and the division by the
outlink count sits under the `num_links != 0` guard), and the returned
distribution's key set is exactly the corpus's key set. -/
theorem c10_transition_total (corpus : Corpus) (page : Page) (d : ℚ)
    (h : page ∈ keys corpus) :
    (∃ dist, transition_model corpus page d = Except.ok dist
        ∧ keys dist = keys corpus)
    ∧ 0 < corpus.length := by
  refine ⟨transition_model_total d h, ?_⟩
  rw [← length_keys]
  exact List.length_pos.mpr (List.ne_nil_of_mem h)

/-- Witness for C10: the two-page cycle at page `A`, `d = 1/2`. -/
theorem c10_transition_total_witness :
    (∃ dist, transition_model [("A", ["B"]), ("B", ["A"])] "A" (1 / 2)
        = Except.ok dist
        ∧ keys dist = keys [("A", ["B"]), ("B", ["A"])])
    ∧ 0 < ([("A", ["B"]), ("B", ["A"])] : Corpus).length :=
  c10_transition_total [("A", ["B"]), ("B", ["A"])] "A" (1 / 2) (by decide)

/-! ### Behaviour of `sample_pagerank` -/

theorem getD_mod_mem (l : List Page) (i : ℕ) (h : l ≠ []) :
    l.getD (i % l.length) "" ∈ l := by
  have hpos : 0 < l.length := List.length_pos.mpr h
  have hm : i % l.length < l.length := Nat.mod_lt _ hpos
  rw [List.getD_eq_getElem?_getD, List.getElem?_eq_getElem hm]
  exact List.getElem_mem hm

theorem keys_ne_nil {corpus : Corpus} (h : corpus ≠ []) : keys corpus ≠ [] := by
  intro hk
  exact h (List.map_eq_nil_iff.mp hk)

theorem rsum_div (m : RankList) (q : ℚ) :
    rsum (m.map fun e => (e.1, e.2 / q)) = rsum m / q := by
  induction m with
  | nil => simp
  | cons e rest ih => simp [ih, add_div]

theorem sampleSteps_ok (corpus : Corpus) (draws : ℕ → ℕ)
    (hnd : (keys corpus).Nodup) (hne : corpus ≠ []) :
    ∀ (k : ℕ) (page : Page) (rank : RankList) (idx : ℕ),
      page ∈ keys corpus → keys rank = keys corpus →
      ∃ rank', sampleSteps corpus draws k page rank idx = Except.ok rank'
        ∧ keys rank' = keys corpus
        ∧ rsum rank' = rsum rank + (k : ℚ) := by
  intro k
  induction k with
  | zero =>
    intro page rank idx _ hk
    exact ⟨rank, rfl, hk, by simp⟩
  | succ k ih =>
    intro page rank idx hp hk
    obtain ⟨dist, hdist, hkeys⟩ := transition_model_total DAMPING hp
    have hne' : keys dist ≠ [] := by
      rw [hkeys]
      exact keys_ne_nil hne
    have hnext : (keys dist).getD (draws idx % (keys dist).length) ""
        ∈ keys corpus := by
      rw [← hkeys]
      exact getD_mod_mem _ _ hne'
    have hkr : keys (incr rank
        ((keys dist).getD (draws idx % (keys dist).length) ""))
        = keys corpus := by
      rw [keys_incr, hk]
    obtain ⟨rank', h1, h2, h3⟩ := ih
      ((keys dist).getD (draws idx % (keys dist).length) "")
      (incr rank ((keys dist).getD (draws idx % (keys dist).length) ""))
      (idx + 1) hnext hkr
    refine ⟨rank', ?_, h2, ?_⟩
    · simp only [sampleSteps]
      rw [hdist]
      exact h1
    · rw [h3, rsum_incr (hk ▸ hnext) (hk ▸ hnd)]
      push_cast
      ring

theorem sample_pagerank_ok (corpus : Corpus) (d : ℚ) (n : ℕ) (draws : ℕ → ℕ)
    (hnd : (keys corpus).Nodup) (hne : corpus ≠ []) (hn : 1 ≤ n) :
    ∃ rank, sample_pagerank corpus d n draws = Except.ok rank
      ∧ keys rank = keys corpus ∧ rsum rank = 1 := by
  have hlen : ¬corpus.length = 0 := by
    simpa using (List.length_pos.mpr hne).ne'
  have hk0 : keys (corpus.map fun e => (e.1, (0 : ℚ))) = keys corpus :=
    keys_map_of_fst corpus _ fun _ => rfl
  have hs0 : rsum (corpus.map fun e => (e.1, (0 : ℚ))) = 0 := by
    rw [rsum_map_keyfun corpus fun _ => (0 : ℚ)]
    exact wsum_zero _
  have hstart : (keys corpus).getD (draws 0 % (keys corpus).length) ""
      ∈ keys corpus := getD_mod_mem _ _ (keys_ne_nil hne)
  have hk1 : keys (incr (corpus.map fun e => (e.1, (0 : ℚ)))
      ((keys corpus).getD (draws 0 % (keys corpus).length) ""))
      = keys corpus := by
    rw [keys_incr, hk0]
  have hs1 : rsum (incr (corpus.map fun e => (e.1, (0 : ℚ)))
      ((keys corpus).getD (draws 0 % (keys corpus).length) "")) = 1 := by
    rw [rsum_incr (hk0 ▸ hstart) (hk0 ▸ hnd), hs0]
    ring
  obtain ⟨rank', h1, h2, h3⟩ := sampleSteps_ok corpus draws hnd hne (n - 1)
    ((keys corpus).getD (draws 0 % (keys corpus).length) "")
    (incr (corpus.map fun e => (e.1, (0 : ℚ)))
      ((keys corpus).getD (draws 0 % (keys corpus).length) ""))
    1 hstart hk1
  refine ⟨rank'.map fun e => (e.1, e.2 / (n : ℚ)), ?_, ?_, ?_⟩
  · simp only [sample_pagerank, hlen, ite_false, if_false]
    rw [h1]
  · rw [keys_map_of_fst rank' (fun e => (e.1, e.2 / (n : ℚ))) fun _ => rfl, h2]
  · rw [rsum_div, h3, hs1]
    have hcast : ((n - 1 : ℕ) : ℚ) = (n : ℚ) - 1 := by
      push_cast [hn]
      ring
    rw [hcast]
    have hne0 : (n : ℚ) ≠ 0 := Nat.cast_ne_zero.mpr (by omega)
    field_simp

theorem sample_pagerank_single_page (d : ℚ) (n : ℕ) (draws : ℕ → ℕ)
    (hn : 1 ≤ n) :
    sample_pagerank [("1.html", [])] d n draws
      = Except.ok [("1.html", 1)] := by
  obtain ⟨rank, h1, h2, h3⟩ :=
    sample_pagerank_ok [("1.html", [])] d n draws (by decide) (by decide) hn
  have hrank : rank = [("1.html", 1)] := by
    cases rank with
    | nil => simp at h2
    | cons e rest =>
      obtain ⟨p, x⟩ := e
      simp only [keys_cons, keys_nil, List.cons.injEq] at h2
      have hrest : rest = [] := List.map_eq_nil_iff.mp h2.2
      subst hrest
      rw [rsum_cons, rsum_nil, add_zero] at h3
      simp only at h2 h3
      rw [h2.1, h3]
  rw [hrank] at h1
  exact h1
/-! ### Behaviour of `iterPass` (one round of `iterate_pagerank`) -/

theorem iterPass_nil (corpus : Corpus) (d : ℚ) (rank : RankList) (md : ℚ) :
    iterPass corpus d [] rank md = (rank, md) := rfl

theorem iterPass_cons (corpus : Corpus) (d : ℚ) (html : Page)
    (rest : List Page) (rank : RankList) (md : ℚ) :
    iterPass corpus d (html :: rest) rank md
      = iterPass corpus d rest
          (setVal rank html (newRankFor corpus d rank html))
          (if |((find? rank html).getD 0)
                - newRankFor corpus d rank html| > 0 then
              |((find? rank html).getD 0) - newRankFor corpus d rank html|
            else 0) := rfl

theorem iterPass_append (corpus : Corpus) (d : ℚ) (xs ys : List Page) :
    ∀ (rank : RankList) (md : ℚ),
      iterPass corpus d (xs ++ ys) rank md
        = iterPass corpus d ys (iterPass corpus d xs rank md).1
            (iterPass corpus d xs rank md).2 := by
  induction xs with
  | nil => intro rank md; rfl
  | cons x xs ih =>
    intro rank md
    rw [List.cons_append, iterPass_cons, iterPass_cons, ih]

theorem iterPass_keys (corpus : Corpus) (d : ℚ) (pages : List Page) :
    ∀ (rank : RankList) (md : ℚ),
      keys (iterPass corpus d pages rank md).1 = keys rank := by
  induction pages with
  | nil => intro rank md; rfl
  | cons p rest ih =>
    intro rank md
    rw [iterPass_cons, ih, keys_setVal]

theorem find?_iterPass_not_mem (corpus : Corpus) (d : ℚ)
    {pages : List Page} {p : Page} (h : p ∉ pages) :
    ∀ (rank : RankList) (md : ℚ),
      find? (iterPass corpus d pages rank md).1 p = find? rank p := by
  induction pages with
  | nil => intro rank md; rfl
  | cons q rest ih =>
    intro rank md
    rw [List.mem_cons, not_or] at h
    rw [iterPass_cons, ih h.2, find?_setVal_ne _ h.1]

/-! ### Claims C1–C6, C8, C9 -/

/-- **C1.** The sampling estimator does return one value per corpus page with
the values summing to exactly 1, for every well-formed non-empty corpus,
damping factor, positive `n`, and draw sequence.  But the claim fails for
`iterate_pagerank`: on the corpus `{A: {}, B: {A}}` with damping `0.85` the
loop returns `{A: 111/800, B: 3/40}` after its second round (the reset
`max_diff` sees only page `B`'s zero difference), and those values sum to
`171/800 ≈ 0.214`, which is not within any small tolerance of 1. -/
theorem c1_rank_sums :
    (iterate_pagerank [("A", []), ("B", ["A"])] (17 / 20) 2
        = Except.ok [("A", 111 / 800), ("B", 3 / 40)]
      ∧ rsum [("A", 111 / 800), ("B", 3 / 40)] = 171 / 800
      ∧ |(171 / 800 : ℚ) - 1| > 1 / 2)
    ∧ ∀ (corpus : Corpus) (d : ℚ) (n : ℕ) (draws : ℕ → ℕ),
        (keys corpus).Nodup → corpus ≠ [] → 1 ≤ n →
        ∃ rank, sample_pagerank corpus d n draws = Except.ok rank
          ∧ keys rank = keys corpus ∧ rsum rank = 1 := by
  refine ⟨⟨by decide, by decide, by decide⟩, ?_⟩
  intro corpus d n draws hnd hne hn
  exact sample_pagerank_ok corpus d n draws hnd hne hn

/-- Witness for C1's universal part: the same two-page corpus, `n = 3`. -/
theorem c1_rank_sums_witness :
    ∃ rank, sample_pagerank [("A", []), ("B", ["A"])] (17 / 20) 3 (fun _ => 0)
        = Except.ok rank
      ∧ keys rank = keys [("A", []), ("B", ["A"])] ∧ rsum rank = 1 :=
  c1_rank_sums.2 [("A", []), ("B", ["A"])] (17 / 20) 3 (fun _ => 0)
    (by decide) (by decide) (by decide)

/-- **C2.** On `{A: {}, B: {A}}` with damping `0.85`: after round 1 the rank
dict is `{A: 1/2, B: 3/40}` and `max_diff` ends round 1 at `17/40` (page `B`'s
difference).  In round 2 page `A`'s old/new difference is `289/800 ≈ 0.361`,
far above the `0.001` threshold — yet the loop returns at the end of round 2,
because `max_diff` is re-initialised to `0` for every page (line 136 sits
inside the `for html in corpus` loop), so the value compared at line 157 is
only the difference of the *last* page, not the maximum across all pages. -/
theorem c2_termination_check :
    iterPass [("A", []), ("B", ["A"])] (17 / 20)
        (keys [("A", []), ("B", ["A"])]) [("A", 1 / 2), ("B", 1 / 2)] 0
      = ([("A", 1 / 2), ("B", 3 / 40)], 17 / 40)
    ∧ |((find? [("A", 1 / 2), ("B", 3 / 40)] "A").getD 0)
        - newRankFor [("A", []), ("B", ["A"])] (17 / 20)
            [("A", 1 / 2), ("B", 3 / 40)] "A"| = 289 / 800
    ∧ (1 / 1000 : ℚ) ≤ 289 / 800
    ∧ iterate_pagerank [("A", []), ("B", ["A"])] (17 / 20) 2
        = Except.ok [("A", 111 / 800), ("B", 3 / 40)] := by
  refine ⟨by decide, by decide, by decide, by decide⟩

/-- Counterexample for C3 as stated: on `{A: {B}, B: {}}` from ranks
`{A: 1/2, B: 1/2}`, one round of the code (which overwrites `rank[html]` in
place at line 154) differs from the all-at-once update computed from the
frozen prior mapping: the code gives `B` rank `111/800` (it reads `A`'s
already-updated `3/40`), while the frozen-snapshot round gives `1/2`. -/
theorem c3_round_not_frozen :
    (iterPass [("A", ["B"]), ("B", [])] (17 / 20)
        (keys [("A", ["B"]), ("B", [])]) [("A", 1 / 2), ("B", 1 / 2)] 0).1
      ≠ jacobiPass [("A", ["B"]), ("B", [])] (17 / 20)
          [("A", 1 / 2), ("B", 1 / 2)] := by decide

/-- **C3 (amended).** Each round of `iterate_pagerank` updates ranks
page-by-page in place: the value a round assigns to page `p` is the reference
formula `newRankFor` evaluated at the *mixed* state in which the pages before
`p` in corpus order already carry this round's values — not at a frozen
snapshot of the prior round. -/
theorem c3_in_place_round (corpus : Corpus) (d : ℚ) (rank : RankList)
    (md : ℚ) (pre post : List Page) (p : Page)
    (hmem : p ∈ keys rank) (hpost : p ∉ post) :
    find? (iterPass corpus d (pre ++ p :: post) rank md).1 p
      = some (newRankFor corpus d (iterPass corpus d pre rank md).1 p) := by
  rw [iterPass_append, iterPass_cons,
    find?_iterPass_not_mem corpus d hpost]
  refine find?_setVal_self _ ?_
  rw [iterPass_keys]
  exact hmem

/-- Witness for the amended C3: computing `B` after `A` on `{A: {B}, B: {}}`. -/
theorem c3_in_place_round_witness :
    find? (iterPass [("A", ["B"]), ("B", [])] (17 / 20) (["A"] ++ "B" :: [])
        [("A", 1 / 2), ("B", 1 / 2)] 0).1 "B"
      = some (newRankFor [("A", ["B"]), ("B", [])] (17 / 20)
          (iterPass [("A", ["B"]), ("B", [])] (17 / 20) ["A"]
              [("A", 1 / 2), ("B", 1 / 2)] 0).1 "B") :=
  c3_in_place_round [("A", ["B"]), ("B", [])] (17 / 20)
    [("A", 1 / 2), ("B", 1 / 2)] 0 ["A"] [] "B" (by decide) (by decide)

/-- **C4.** `sample_pagerank` never reads its `damping_factor` parameter: line
102 passes the module constant `DAMPING` to `transition_model`.  Hence its
result is identical under any two damping factors — for *all* inputs — even
though the transition model itself genuinely differs between `d = 1/2` and
`d = 17/20` on the two-page cycle. -/
theorem c4_damping_ignored :
    (∀ (corpus : Corpus) (d d' : ℚ) (n : ℕ) (draws : ℕ → ℕ),
        sample_pagerank corpus d n draws = sample_pagerank corpus d' n draws)
    ∧ transition_model [("A", ["B"]), ("B", ["A"])] "A" (1 / 2)
        ≠ transition_model [("A", ["B"]), ("B", ["A"])] "A" (17 / 20) :=
  ⟨fun _ _ _ _ _ => rfl, by decide⟩

/-- **C5.** On the single-page corpus `{1.html: {}}`, `sample_pagerank`
returns rank 1 for every `n ≥ 1`, damping factor, and draw sequence — but
`iterate_pagerank` with damping `0.85` returns `{1.html: 3/20}` (the dangling
page's mass is never redistributed: the zero-outlink sum at lines 143-147 skips
every page with no outlinks, so the value reached is `1 - d`, not 1). -/
theorem c5_single_page :
    iterate_pagerank [("1.html", [])] (17 / 20) 2
        = Except.ok [("1.html", 3 / 20)]
    ∧ ((3 : ℚ) / 20 ≠ 1)
    ∧ ∀ (d : ℚ) (n : ℕ) (draws : ℕ → ℕ), 1 ≤ n →
        sample_pagerank [("1.html", [])] d n draws
          = Except.ok [("1.html", 1)] := by
  refine ⟨by decide, by decide, ?_⟩
  intro d n draws hn
  exact sample_pagerank_single_page d n draws hn

/-- Witness for C5's universal part at `n = 7`. -/
theorem c5_single_page_witness :
    sample_pagerank [("1.html", [])] (1 / 3) 7 (fun _ => 1)
      = Except.ok [("1.html", 1)] :=
  c5_single_page.2.2 (1 / 3) 7 (fun _ => 1) (by decide)

/-- **C6.** None of the three core operations rejects an empty corpus with an
explicit, clear error.  Each propagates the runtime fault it happens to hit:
`transition_model` raises `KeyError` at `corpus[page]`, `sample_pagerank`
raises `IndexError` inside `random.choice(list(corpus))`, and
`iterate_pagerank` raises `NameError` at `if max_diff < 0.001` (the local was
never assigned, since the page loop did not run).  No `1/N` division by zero
is ever reached. -/
theorem c6_empty_corpus :
    transition_model [] "index.html" (17 / 20) = Except.error Err.keyError
    ∧ sample_pagerank [] (17 / 20) 10000 (fun _ => 0)
        = Except.error Err.indexError
    ∧ iterate_pagerank [] (17 / 20) 10000 = Except.error Err.nameError := by
  refine ⟨rfl, by decide, by decide⟩

/-- **C8.** The link-graph builder: every `.html` entry is retained as a key
(dangling pages included, mapped to an empty set), and the stored outlink set
of a page `p` with raw extracted targets `raw` holds exactly the members of
`raw` that are page identifiers of the collection, minus `p` itself. -/
theorem c8_crawl_links (files : List (Page × List Page)) :
    keys (crawl files)
      = keys (files.filter fun f => endsWithStr f.1 ".html")
    ∧ ∀ (p : Page) (raw : List Page),
        find? (files.filter fun f => endsWithStr f.1 ".html") p = some raw →
        ∃ out, find? (crawl files) p = some out
          ∧ ∀ l, l ∈ out ↔ l ∈ raw ∧ l ∈ keys (crawl files) ∧ l ≠ p := by
  have hpages : keys (crawlPages files)
      = keys (files.filter fun f => endsWithStr f.1 ".html") := by
    unfold crawlPages
    exact keys_map_of_fst _ _ fun _ => rfl
  have hcrawl : keys (crawl files) = keys (crawlPages files) := by
    unfold crawl
    exact keys_map_of_fst _ _ fun _ => rfl
  constructor
  · rw [hcrawl, hpages]
  · intro p raw hraw
    have hfp : find? (crawlPages files) p
        = some (raw.dedup.filter fun l => l ≠ p) := by
      unfold crawlPages
      rw [find?_map _
        (fun (k : Page) (v : List Page) => v.dedup.filter fun l => l ≠ k) p,
        hraw]
      rfl
    refine ⟨(raw.dedup.filter fun l => l ≠ p).filter fun link =>
        (find? (crawlPages files) link).isSome, ?_, ?_⟩
    · unfold crawl
      rw [find?_map _
        (fun (_ : Page) (v : List Page) => v.filter fun link =>
          (find? (crawlPages files) link).isSome) p,
        hfp]
      rfl
    · intro l
      rw [List.mem_filter, List.mem_filter, List.mem_dedup, hcrawl]
      constructor
      · rintro ⟨⟨hl1, hl2⟩, hl3⟩
        refine ⟨hl1, ?_, by simpa using hl2⟩
        rw [← find?_isSome_iff]
        simpa using hl3
      · rintro ⟨hl1, hl2, hl3⟩
        refine ⟨⟨hl1, by simpa using hl3⟩, ?_⟩
        rw [← find?_isSome_iff] at hl2
        simpa using hl2

/-- Witness for C8 on a three-file directory (one non-HTML file, one raw
self-link, one raw dead link). -/
theorem c8_crawl_links_witness :
    ∃ out,
      find? (crawl [("a.html", ["b.html", "a.html", "zzz"]), ("b.html", []),
          ("notes.txt", ["a.html"])]) "a.html" = some out
        ∧ ∀ l, l ∈ out ↔
            l ∈ (["b.html", "a.html", "zzz"] : List Page)
              ∧ l ∈ keys (crawl [("a.html", ["b.html", "a.html", "zzz"]),
                  ("b.html", []), ("notes.txt", ["a.html"])])
              ∧ l ≠ "a.html" :=
  (c8_crawl_links [("a.html", ["b.html", "a.html", "zzz"]), ("b.html", []),
      ("notes.txt", ["a.html"])]).2
    "a.html" ["b.html", "a.html", "zzz"] (by decide)

/-- **C9.** `main` exits with the usage message (status 1) whenever the number
of supplied arguments differs from one, and with exactly one argument it runs
both estimators on the crawled corpus and reports both rank mappings. -/
theorem c9_main_dispatch (args : List String) (corpus : Corpus)
    (draws : ℕ → ℕ) (fuel : ℕ) :
    (args.length ≠ 1 →
        mainProg args corpus draws fuel
          = Except.ok (MainOutcome.usageExit 1) ∧ (1 : ℕ) ≠ 0)
    ∧ (args.length = 1 → ∀ s r,
        sample_pagerank corpus DAMPING SAMPLES draws = Except.ok s →
        iterate_pagerank corpus DAMPING fuel = Except.ok r →
        mainProg args corpus draws fuel
          = Except.ok (MainOutcome.report s r)) := by
  constructor
  · intro h
    rw [mainProg, if_pos h]
    exact ⟨rfl, by decide⟩
  · intro h s r hs hr
    rw [mainProg, if_neg (fun hne => hne h), hs, hr]

/-- Witness for C9: no argument gives the usage exit; one argument on the
single-page corpus reports the two estimators' results. -/
theorem c9_main_dispatch_witness :
    (mainProg [] [("1.html", [])] (fun _ => 0) 2
        = Except.ok (MainOutcome.usageExit 1) ∧ (1 : ℕ) ≠ 0)
    ∧ mainProg ["corpus"] [("1.html", [])] (fun _ => 0) 2
        = Except.ok (MainOutcome.report [("1.html", 1)] [("1.html", 3 / 20)]) :=
  ⟨(c9_main_dispatch [] [("1.html", [])] (fun _ => 0) 2).1 (by decide),
   (c9_main_dispatch ["corpus"] [("1.html", [])] (fun _ => 0) 2).2 rfl
     [("1.html", 1)] [("1.html", 3 / 20)]
     (sample_pagerank_single_page DAMPING SAMPLES (fun _ => 0) (by decide))
     (by decide)⟩

end PageRank
